import Mathlib

/-!
Verification development for the resume field-extraction pipeline of
`parser.py` (Whatsapp-Resume-Parser).  The file shallow-embeds the second
(effective) definition of `extract_details_huggingface` together with
`clean_name`; Python's `re` searches are modelled by a small backtracking
regex engine whose search order reproduces leftmost-first matching with
greedy/lazy priority, and `re.sub` cleaning passes are modelled by direct
scanning functions.  The NER pipeline is an external capability and is
modelled as an oracle that may fail (`Except`), mirroring the
`try/except` in the source.  All definitions are structurally recursive
(or fueled) so that concrete inputs evaluate inside the kernel.
-/

/-! Character classes (ASCII, matching Python `re` on the texts involved) -/

/-- Python `\s` for ASCII text: space, tab, newline, carriage return,
vertical tab, form feed. -/
def pyWs (c : Char) : Bool := c.toNat = 32 || (9 ≤ c.toNat && c.toNat ≤ 13)

/-- Python `\d` for ASCII text. -/
def pyDigit (c : Char) : Bool := 48 ≤ c.toNat && c.toNat ≤ 57

/-- ASCII `A`-`Z`, Python `str.isupper` on ASCII. -/
def asciiUpper (c : Char) : Bool := 65 ≤ c.toNat && c.toNat ≤ 90

/-- ASCII `a`-`z`. -/
def asciiLower (c : Char) : Bool := 97 ≤ c.toNat && c.toNat ≤ 122

/-- ASCII letter. -/
def asciiAlpha (c : Char) : Bool := asciiUpper c || asciiLower c

/-- Python `\w` (word character) for ASCII text. -/
def isWordCh (c : Char) : Bool := asciiAlpha c || pyDigit c || c.toNat = 95

/-- Fold upper-case ASCII letters to lower case, as a code point. -/
def lomap (c : Char) : Nat := if asciiUpper c then c.toNat + 32 else c.toNat

/-- Case-insensitive ASCII character equality (`re.IGNORECASE`). -/
def ciEq (a b : Char) : Bool := lomap a == lomap b

/-! Character classes appearing in the source's regex patterns -/

inductive CC where
  | digit       -- `\d`
  | wsp         -- `\s`
  | notNl       -- `[^\n]`
  | alpha       -- `[A-Z]` under IGNORECASE, `[a-zA-Z]` under IGNORECASE
  | upperA      -- `[A-Z]` (case-sensitive)
  | lowerA      -- `[a-z]` (case-sensitive)
  | lit (c : Char)    -- a literal character
  | ilit (c : Char)   -- a literal character under IGNORECASE
  | emailLoc    -- `[A-Za-z0-9._%+-]`
  | emailDom    -- `[A-Za-z0-9.-]`
  | tld         -- `[A-Z|a-z]` (the `|` is inside the class in the source)
  | phSep       -- `[-.\s]`
  | colCls      -- `[A-Za-z\s&,.-]`
  | colonDash   -- `[:\-]`
deriving DecidableEq

def CC.mem : CC → Char → Bool
  | .digit, c => pyDigit c
  | .wsp, c => pyWs c
  | .notNl, c => c != '\n'
  | .alpha, c => asciiAlpha c
  | .upperA, c => asciiUpper c
  | .lowerA, c => asciiLower c
  | .lit c0, c => c == c0
  | .ilit c0, c => ciEq c0 c
  | .emailLoc, c => asciiAlpha c || pyDigit c || c == '.' || c == '_' || c == '%' || c == '+' || c == '-'
  | .emailDom, c => asciiAlpha c || pyDigit c || c == '.' || c == '-'
  | .tld, c => asciiAlpha c || c == '|'
  | .phSep, c => c == '-' || c == '.' || pyWs c
  | .colCls, c => asciiAlpha c || pyWs c || c == '&' || c == ',' || c == '.' || c == '-'
  | .colonDash, c => c == ':' || c == '-'

/-! Regex abstract syntax

Bounded repetitions `{n}`, `{n,m}`, `?` are expanded into `seq`/`alt`
chains by smart constructors; only `*`/`+` use `star`, which is run with
fuel (every `star` body in the source's patterns consumes at least one
character, so fuel `length + 2` is never exhausted). -/

inductive RE where
  | eps
  | cls (c : CC)
  | seq (a b : RE)
  | alt (a b : RE)
  | grp (i : Nat) (r : RE)
  | star (r : RE) (lazy : Bool)
  | wb    -- `\b`
  | bol   -- `^` under MULTILINE

/-- Captured groups: (index, start, stop) with positions into the text. -/
abbrev Caps := List (Nat × Nat × Nat)

/-- Word boundary at position `pos` of `full`. -/
def atWB (full : List Char) (pos : Nat) : Bool :=
  let a := match pos, full[pos - 1]? with
    | 0, _ => false
    | _ + 1, some c => isWordCh c
    | _ + 1, none => false
  let b := match full[pos]? with
    | some c => isWordCh c
    | none => false
  a != b

/-- Beginning of line at position `pos` (MULTILINE `^`). -/
def atBOL (full : List Char) (pos : Nat) : Bool :=
  match pos, full[pos - 1]? with
  | 0, _ => true
  | _ + 1, some c => c == '\n'
  | _ + 1, none => false

/-- Run the closure `body` zero or more times, producing the continuation
states in backtracking priority order (more iterations first when greedy,
fewer first when lazy). -/
def reMStar (body : Nat → Caps → List (Nat × Caps)) (lz : Bool) :
    Nat → Nat → Caps → List (Nat × Caps)
  | 0, pos, caps => [(pos, caps)]
  | fuel + 1, pos, caps =>
      let more := (body pos caps).flatMap fun pc => reMStar body lz fuel pc.1 pc.2
      if lz then (pos, caps) :: more else more ++ [(pos, caps)]

/-- All ways the regex `r` can match a prefix of `full.drop pos`,
listed in backtracking priority order as (end position, captures). -/
def reM (full : List Char) (fuel : Nat) : RE → Nat → Caps → List (Nat × Caps)
  | .eps, pos, caps => [(pos, caps)]
  | .cls c, pos, caps =>
      match full[pos]? with
      | some ch => if CC.mem c ch then [(pos + 1, caps)] else []
      | none => []
  | .seq a b, pos, caps =>
      (reM full fuel a pos caps).flatMap fun pc => reM full fuel b pc.1 pc.2
  | .alt a b, pos, caps => reM full fuel a pos caps ++ reM full fuel b pos caps
  | .grp i r, pos, caps =>
      (reM full fuel r pos caps).map fun pc => (pc.1, (i, pos, pc.1) :: pc.2)
  | .star r lz, pos, caps => reMStar (reM full fuel r) lz fuel pos caps
  | .wb, pos, caps => if atWB full pos then [(pos, caps)] else []
  | .bol, pos, caps => if atBOL full pos then [(pos, caps)] else []

/-- Leftmost search: try to match at `pos`, `pos+1`, ... (like
`re.search`); returns (start, stop, captures) of the first match. -/
def searchGo (r : RE) (full : List Char) : Nat → Nat → Option (Nat × Nat × Caps)
  | 0, pos =>
      match reM full (full.length + 2) r pos [] with
      | pc :: _ => some (pos, pc.1, pc.2)
      | [] => none
  | f + 1, pos =>
      match reM full (full.length + 2) r pos [] with
      | pc :: _ => some (pos, pc.1, pc.2)
      | [] => searchGo r full f (pos + 1)

/-- Model of `re.search(pattern, text)`. -/
def research (r : RE) (full : List Char) : Option (Nat × Nat × Caps) :=
  searchGo r full full.length 0

/-- The slice of `full` between positions `a` and `b`. -/
def sliceL (full : List Char) (a b : Nat) : List Char := (full.drop a).take (b - a)

/-- The span of capture group `i` (Python `m.group(i)`), if it matched. -/
def grpSpan (caps : Caps) (i : Nat) : Option (Nat × Nat) :=
  match caps.find? fun e => e.1 == i with
  | some e => some e.2
  | none => none

/-! Smart constructors for bounded repetition -/

def seqL : List RE → RE
  | [] => .eps
  | [r] => r
  | r :: rs => .seq r (seqL rs)

/-- Greedy `?`. -/
def RE.opt (r : RE) : RE := .alt r .eps

/-- Model of `r{n}`. -/
def repN (r : RE) : Nat → RE
  | 0 => .eps
  | 1 => r
  | n + 1 => .seq r (repN r n)

/-- Greedy `r{0,n}`. -/
def upTo (r : RE) : Nat → RE
  | 0 => .eps
  | n + 1 => .alt (.seq r (upTo r n)) .eps

/-- Lazy `r{0,n}?`. -/
def upToL (r : RE) : Nat → RE
  | 0 => .eps
  | n + 1 => .alt .eps (.seq r (upToL r n))

/-- Greedy `r+`. -/
def plus (r : RE) : RE := .seq r (.star r false)

/-- Lazy `r+?`. -/
def plusL (r : RE) : RE := .seq r (.star r true)

/-- Case-sensitive literal string. -/
def reStr (s : List Char) : RE := seqL (s.map fun c => RE.cls (.lit c))

/-- Case-insensitive literal string (`re.IGNORECASE`). -/
def reIStr (s : List Char) : RE := seqL (s.map fun c => RE.cls (.ilit c))

/-! The regex patterns of `parser.py`

Each `re.search` pattern of the effective `extract_details_huggingface`
is hand-compiled into the `RE` syntax above, preserving alternation
order and greedy/lazy quantifiers. -/

/-- Model of `\b[A-Za-z0-9._%+-]+@[A-Za-z0-9.-]+\.[A-Z|a-z]{2,}\b` -/
def emailRE : RE :=
  seqL [.wb, plus (.cls .emailLoc), .cls (.lit '@'), plus (.cls .emailDom),
        .cls (.lit '.'), repN (.cls .tld) 2, .star (.cls .tld) false, .wb]

/-- Model of `\+?\d{1,3}[-.\s]?\(?\d{3}\)?[-.\s]?\d{3}[-.\s]?\d{4}` -/
def phoneRE1 : RE :=
  seqL [RE.opt (.cls (.lit '+')), .cls .digit, upTo (.cls .digit) 2,
        RE.opt (.cls .phSep), RE.opt (.cls (.lit '(')), repN (.cls .digit) 3,
        RE.opt (.cls (.lit ')')), RE.opt (.cls .phSep), repN (.cls .digit) 3,
        RE.opt (.cls .phSep), repN (.cls .digit) 4]

/-- Model of `\b\d{10}\b` -/
def phoneRE2 : RE := seqL [.wb, repN (.cls .digit) 10, .wb]

/-- Model of `\+\d{10,15}\b` -/
def phoneRE3 : RE :=
  seqL [.cls (.lit '+'), repN (.cls .digit) 10, upTo (.cls .digit) 5, .wb]

/-- Model of `\s+[A-Z][a-z]+`, the repeated block of the fallback-2 name pattern. -/
def nameWordRE : RE := seqL [plus (.cls .wsp), .cls .upperA, plus (.cls .lowerA)]

/-- Model of `^([A-Z][a-z]+(?:\s+[A-Z][a-z]+){1,3})` with `re.MULTILINE`. -/
def nameRE : RE :=
  .seq .bol (.grp 1 (seqL [.cls .upperA, plus (.cls .lowerA),
                           nameWordRE, upTo nameWordRE 2]))

/-- Model of `(?:Institute|University|College|School)` under IGNORECASE. -/
def kwAltRE : RE :=
  .alt (reIStr "Institute".data) (.alt (reIStr "University".data)
    (.alt (reIStr "College".data) (reIStr "School".data)))

/-- Model of `(?:\d{4}|\n)` -/
def tailYN : RE := .alt (repN (.cls .digit) 4) (.cls (.lit '\n'))

/-- College pattern 1:
`([A-Z][A-Za-z\s&,.-]+?(?:Institute|University|College|School)[A-Za-z\s&,.-]*?)\s*\d{4}` -/
def collegeRE1 : RE :=
  .seq (.grp 1 (seqL [.cls .alpha, plusL (.cls .colCls), kwAltRE,
                      .star (.cls .colCls) true]))
       (.seq (.star (.cls .wsp) false) (repN (.cls .digit) 4))

/-- College pattern 2:
`([A-Z][^\n]*?\s+(?:Institute|University|College|School)\s+of\s+[^\n]+?)(?:\d{4}|\n)` -/
def collegeRE2 : RE :=
  .seq (.grp 1 (seqL [.cls .alpha, .star (.cls .notNl) true, plus (.cls .wsp),
                      kwAltRE, plus (.cls .wsp), reIStr "of".data,
                      plus (.cls .wsp), plusL (.cls .notNl)]))
       tailYN

/-- Model of `(?:IIT|NIT|BITS|VIT|MIT|IIM|IIIT)` under IGNORECASE. -/
def abbrAltRE : RE :=
  .alt (reIStr "IIT".data) (.alt (reIStr "NIT".data) (.alt (reIStr "BITS".data)
    (.alt (reIStr "VIT".data) (.alt (reIStr "MIT".data)
      (.alt (reIStr "IIM".data) (reIStr "IIIT".data))))))

/-- College pattern 3: `((?:IIT|NIT|BITS|VIT|MIT|IIM|IIIT)[^\n]+?)(?:\d{4}|\n)` -/
def collegeRE3 : RE :=
  .seq (.grp 1 (.seq abbrAltRE (plusL (.cls .notNl)))) tailYN

/-- College pattern 4:
`([A-Z][^\n]{10,80}?(?:Institute|University|College|School)[^\n]{0,40}?)(?:\d{4}|\n)` -/
def collegeRE4 : RE :=
  .seq (.grp 1 (seqL [.cls .alpha, repN (.cls .notNl) 10, upToL (.cls .notNl) 70,
                      kwAltRE, upToL (.cls .notNl) 40]))
       tailYN

/-- Model of `(?:Engineering|Technology|Science|Arts|Commerce)` under IGNORECASE. -/
def fieldAltRE : RE :=
  .alt (reIStr "Engineering".data) (.alt (reIStr "Technology".data)
    (.alt (reIStr "Science".data) (.alt (reIStr "Arts".data)
      (reIStr "Commerce".data))))

/-- Model of `\s*(?:CGPA|GPA|Grade|\d{4}|\n)`, the common degree-pattern tail. -/
def degTailRE : RE :=
  .seq (.star (.cls .wsp) false)
       (.alt (reIStr "CGPA".data) (.alt (reIStr "GPA".data)
         (.alt (reIStr "Grade".data) (.alt (repN (.cls .digit) 4)
           (.cls (.lit '\n'))))))

/-- Degree pattern 1:
`(Bachelor\s+of\s+(?:Engineering|Technology|Science|Arts|Commerce)[^\n]*?(?:in[^\n]+?)?)\s*(?:CGPA|GPA|Grade|\d{4}|\n)` -/
def degreeRE1 : RE :=
  .seq (.grp 1 (seqL [reIStr "Bachelor".data, plus (.cls .wsp), reIStr "of".data,
                      plus (.cls .wsp), fieldAltRE, .star (.cls .notNl) true,
                      RE.opt (.seq (reIStr "in".data) (plusL (.cls .notNl)))]))
       degTailRE

/-- Degree pattern 2 (`Master of ...`, otherwise as pattern 1). -/
def degreeRE2 : RE :=
  .seq (.grp 1 (seqL [reIStr "Master".data, plus (.cls .wsp), reIStr "of".data,
                      plus (.cls .wsp), fieldAltRE, .star (.cls .notNl) true,
                      RE.opt (.seq (reIStr "in".data) (plusL (.cls .notNl)))]))
       degTailRE

/-- Model of `(B\.?E\.?|B\.?Tech\.?|M\.?Tech\.?|B\.?Sc\.?|M\.?Sc\.?|PhD)` under IGNORECASE. -/
def degAbbrRE : RE :=
  .alt (seqL [.cls (.ilit 'B'), RE.opt (.cls (.lit '.')), .cls (.ilit 'E'), RE.opt (.cls (.lit '.'))])
    (.alt (seqL [.cls (.ilit 'B'), RE.opt (.cls (.lit '.')), reIStr "Tech".data, RE.opt (.cls (.lit '.'))])
      (.alt (seqL [.cls (.ilit 'M'), RE.opt (.cls (.lit '.')), reIStr "Tech".data, RE.opt (.cls (.lit '.'))])
        (.alt (seqL [.cls (.ilit 'B'), RE.opt (.cls (.lit '.')), reIStr "Sc".data, RE.opt (.cls (.lit '.'))])
          (.alt (seqL [.cls (.ilit 'M'), RE.opt (.cls (.lit '.')), reIStr "Sc".data, RE.opt (.cls (.lit '.'))])
            (reIStr "PhD".data)))))

/-- Degree pattern 3:
`(B\.?E\.?|B\.?Tech\.?|M\.?Tech\.?|B\.?Sc\.?|M\.?Sc\.?|PhD)[^\n]*?(?:in\s+[^\n]+?)?\s*(?:CGPA|GPA|Grade|\d{4}|\n)` -/
def degreeRE3 : RE :=
  seqL [.grp 1 degAbbrRE, .star (.cls .notNl) true,
        RE.opt (seqL [reIStr "in".data, plus (.cls .wsp), plusL (.cls .notNl)]),
        degTailRE]

/-- Model of `\d+\.?\d*` -/
def numRE : RE :=
  seqL [plus (.cls .digit), RE.opt (.cls (.lit '.')), .star (.cls .digit) false]

/-- CGPA pattern 1:
`(?:CGPA|GPA|Grade)\s*[:\-]?\s*(\d+\.?\d*)\s*(?:/|out\s+of)?\s*(\d+\.?\d*)?` -/
def cgpaRE1 : RE :=
  seqL [.alt (reIStr "CGPA".data) (.alt (reIStr "GPA".data) (reIStr "Grade".data)),
        .star (.cls .wsp) false, RE.opt (.cls .colonDash), .star (.cls .wsp) false,
        .grp 1 numRE, .star (.cls .wsp) false,
        RE.opt (.alt (.cls (.lit '/'))
                     (seqL [reIStr "out".data, plus (.cls .wsp), reIStr "of".data])),
        .star (.cls .wsp) false, RE.opt (.grp 2 numRE)]

/-- CGPA pattern 2: `(\d+\.?\d*)\s*/\s*(\d+\.?\d*)\s*(?:CGPA|GPA)` -/
def cgpaRE2 : RE :=
  seqL [.grp 1 numRE, .star (.cls .wsp) false, .cls (.lit '/'),
        .star (.cls .wsp) false, .grp 2 numRE, .star (.cls .wsp) false,
        .alt (reIStr "CGPA".data) (reIStr "GPA".data)]

/-- CGPA pattern 3: `(?:Percentage|Marks)\s*[:\-]?\s*(\d+\.?\d*)%?` -/
def cgpaRE3 : RE :=
  seqL [.alt (reIStr "Percentage".data) (reIStr "Marks".data),
        .star (.cls .wsp) false, RE.opt (.cls .colonDash), .star (.cls .wsp) false,
        .grp 1 numRE, RE.opt (.cls (.lit '%'))]

/-! Python string helpers -/

/-- Python `str.strip()`. -/
def pyStrip (l : List Char) : List Char :=
  ((l.dropWhile pyWs).reverse.dropWhile pyWs).reverse

def splitWsGo (acc : List Char) : List Char → List (List Char)
  | [] => if acc.isEmpty then [] else [acc.reverse]
  | c :: rest =>
      if pyWs c then
        if acc.isEmpty then splitWsGo [] rest else acc.reverse :: splitWsGo [] rest
      else splitWsGo (c :: acc) rest

/-- Python `str.split()` (split on whitespace runs, dropping empties). -/
def pySplitWs (l : List Char) : List (List Char) := splitWsGo [] l

def splitNlGo (acc : List Char) : List Char → List (List Char)
  | [] => [acc.reverse]
  | c :: rest =>
      if c == '\n' then acc.reverse :: splitNlGo [] rest else splitNlGo (c :: acc) rest

/-- Python `text.split('\n')` (separator-keeping empties). -/
def splitNl (l : List Char) : List (List Char) := splitNlGo [] l

/-- Python `str.capitalize()`: first character upper-cased, rest lower-cased. -/
def pyCapitalize : List Char → List Char
  | [] => []
  | c :: rest => c.toUpper :: rest.map Char.toLower

/-- Model of `' '.join(...)`. -/
def joinSp : List (List Char) → List Char
  | [] => []
  | [w] => w
  | w :: rest => w ++ ' ' :: joinSp rest

/-- Python substring test (`kw in line`). -/
def isSub (pat : List Char) : List Char → Bool
  | [] => pat.isEmpty
  | c :: rest => pat.isPrefixOf (c :: rest) || isSub pat rest

/-- Case-insensitive prefix test: does `l` start with `kw`? -/
def ciStarts : List Char → List Char → Bool
  | [], _ => true
  | _ :: _, [] => false
  | k :: ks, c :: cs => ciEq k c && ciStarts ks cs

/-! The `re.sub` cleaning passes, as direct scans -/

def isSpecialCh (c : Char) : Bool :=
  c == '#' || c == '*' || c == '-' || c == '_' || c == '|'

mutual

/-- Model of `re.sub(r'[#\*\-\_\|]+', ' ', name)`: each run of special characters
becomes one space. -/
def subSpecials : List Char → List Char
  | [] => []
  | c :: rest => if isSpecialCh c then ' ' :: skipSpecials rest else c :: subSpecials rest

def skipSpecials : List Char → List Char
  | [] => []
  | c :: rest => if isSpecialCh c then skipSpecials rest else c :: subSpecials rest

end

mutual

/-- Model of `re.sub(r'\s+', ' ', name)`: each whitespace run becomes one space. -/
def collapseWs : List Char → List Char
  | [] => []
  | c :: rest => if pyWs c then ' ' :: skipWsRun rest else c :: collapseWs rest

def skipWsRun : List Char → List Char
  | [] => []
  | c :: rest => if pyWs c then skipWsRun rest else c :: collapseWs rest

end

def headWs : List Char → Bool
  | c :: _ => pyWs c
  | [] => false

/-- One alternative of `^(Mr\.?|Ms\.?|Mrs\.?|Dr\.?|Prof\.?)\s+` (keyword,
greedy optional dot, then mandatory whitespace, all removed); returns the
remainder on success. -/
def honTry (kw : List Char) (l : List Char) : Option (List Char) :=
  if ciStarts kw l then
    match l.drop kw.length with
    | '.' :: r2 => if headWs r2 then some (r2.dropWhile pyWs) else none
    | r => if headWs r then some (r.dropWhile pyWs) else none
  else none

/-- Model of `re.sub(r'^(Mr\.?|Ms\.?|Mrs\.?|Dr\.?|Prof\.?)\s+', '', name, flags=IGNORECASE)`. -/
def stripHon (l : List Char) : List Char :=
  match honTry "Mr".data l with
  | some r => r
  | none =>
    match honTry "Ms".data l with
    | some r => r
    | none =>
      match honTry "Mrs".data l with
      | some r => r
      | none =>
        match honTry "Dr".data l with
        | some r => r
        | none =>
          match honTry "Prof".data l with
          | some r => r
          | none => l

/-- Generic model of `re.sub(pat, '', text)` for a head-matcher `m` giving
the match length at the current position (fueled left-to-right scan that
resumes after each removed match, as `re.sub` does). -/
def subDelGo (m : List Char → Option Nat) : Nat → List Char → List Char
  | 0, l => l
  | _ + 1, [] => []
  | f + 1, c :: rest =>
      match m (c :: rest) with
      | some n => subDelGo m f ((c :: rest).drop n)
      | none => c :: subDelGo m f rest

def subDel (m : List Char → Option Nat) (l : List Char) : List Char :=
  subDelGo m l.length l

/-- Head match of `\s+(Resume|CV|Profile)` (IGNORECASE): a whitespace run
followed by one of the keywords; returns the matched length. -/
def kwSufLen (l : List Char) : Option Nat :=
  let run := (l.takeWhile pyWs).length
  if run = 0 then none
  else
    let after := l.drop run
    if ciStarts "Resume".data after then some (run + 6)
    else if ciStarts "CV".data after then some (run + 2)
    else if ciStarts "Profile".data after then some (run + 7)
    else none

/-- Head match of `\d{4}\s*[-–]\s*\d{4}`: returns the matched length. -/
def yrRangeLen (l : List Char) : Option Nat :=
  if (l.take 4).length = 4 && (l.take 4).all pyDigit then
    let r1 := ((l.drop 4).takeWhile pyWs).length
    match l.drop (4 + r1) with
    | c :: rest =>
        if c == '-' || c == '–' then
          let r2 := (rest.takeWhile pyWs).length
          let tail := rest.drop r2
          if (tail.take 4).length = 4 && (tail.take 4).all pyDigit then
            some (4 + r1 + 1 + r2 + 4)
          else none
        else none
    | [] => none
  else none

/-- Head match of `\d{4}\s*[-–]\s*Present` (case-sensitive): matched length. -/
def yrPresentLen (l : List Char) : Option Nat :=
  if (l.take 4).length = 4 && (l.take 4).all pyDigit then
    let r1 := ((l.drop 4).takeWhile pyWs).length
    match l.drop (4 + r1) with
    | c :: rest =>
        if c == '-' || c == '–' then
          let r2 := (rest.takeWhile pyWs).length
          if "Present".data.isPrefixOf (rest.drop r2) then
            some (4 + r1 + 1 + r2 + 7)
          else none
        else none
    | [] => none
  else none

/-- Head match of `Education\s*` (IGNORECASE): matched length. -/
def eduLen (l : List Char) : Option Nat :=
  if ciStarts "Education".data l then
    some (9 + ((l.drop 9).takeWhile pyWs).length)
  else none

/-! `clean_name` -/

/-- Model of `clean_name` of `parser.py`, over the character list. -/
def clean_nameL (l : List Char) : Option (List Char) :=
  if l.isEmpty then none
  else
    let s1 := collapseWs (subSpecials l)
    let s2 := stripHon s1
    let s3 := subDel kwSufLen s2
    let s4 := s3.filter fun c => !pyDigit c
    let words := (pySplitWs s4).filter fun w => 1 < w.length
    let cleaned := pyStrip (joinSp (words.map pyCapitalize))
    if decide (2 ≤ (pySplitWs cleaned).length) && decide (4 ≤ cleaned.length)
        && decide (cleaned.length ≤ 50) then
      some cleaned
    else none

/-- Model of `clean_name` on strings (`clean_name(None)`/`clean_name("")` are `None`:
the empty list plays the falsy role). -/
def clean_name (s : String) : Option String := (clean_nameL s.data).map String.mk

/-- The cleanup chain applied to a college capture:
`.strip()`, collapse `\s+`, remove `\d{4}\s*[-–]\s*\d{4}`, remove
`\d{4}\s*[-–]\s*Present`, remove `Education\s*`, `.strip()`. -/
def cleanCollege (g : List Char) : List Char :=
  pyStrip (subDel eduLen (subDel yrPresentLen (subDel yrRangeLen
    (collapseWs (pyStrip g)))))

/-! Data model and the field extractors -/

/-- An entity produced by the NER capability (`dslim/bert-base-NER`
pipeline output, as consumed by the source). -/
structure Ent where
  entity_group : String
  word : String
  start : Int
  end_ : Int
  score : ℚ
deriving DecidableEq, Repr

/-- The NER capability as an oracle; `Except.error` models a raised
exception (model load error, inference error). -/
abbrev NerOracle := String → Except String (List Ent)

/-- The record assembled by `extract_details_huggingface`. -/
structure Details where
  name : Option String
  email : Option String
  phone : Option String
  college : Option String
  degree : Option String
  cgpa : Option String
deriving DecidableEq, Repr

/-- Model of `m.group(i)` as a slice of the text. -/
def grpStr (cs : List Char) (caps : Caps) (i : Nat) : Option (List Char) :=
  (grpSpan caps i).map fun ab => sliceL cs ab.1 ab.2

/-- The email field: first match of the email pattern, verbatim. -/
def emailVal (cs : List Char) : Option String :=
  (research emailRE cs).map fun m => String.mk (sliceL cs m.1 m.2.1)

/-- The separator class stripped from a phone match:
`re.sub(r'[-.\s()]', '', ...)`. -/
def phoneStripCh (c : Char) : Bool :=
  c == '-' || c == '.' || pyWs c || c == '(' || c == ')'

def phone_patterns : List RE := [phoneRE1, phoneRE2, phoneRE3]

/-- The phone loop: first pattern that matches wins; separators are
stripped from the matched substring. -/
def phoneLoop : List RE → List Char → Option String
  | [], _ => none
  | p :: ps, cs =>
      match research p cs with
      | some m =>
          some (String.mk ((sliceL cs m.1 m.2.1).filter fun c => !phoneStripCh c))
      | none => phoneLoop ps cs

def phoneVal (cs : List Char) : Option String := phoneLoop phone_patterns cs

/-- The entity filter loop: keep `PER` entities with score strictly
above `0.75` (the source tests `ent['score'] > 0.75`). -/
def personEnts : List Ent → List Ent
  | [] => []
  | e :: es =>
      if e.entity_group == "PER" && decide ((0.75 : ℚ) < e.score) then
        e :: personEnts es
      else personEnts es

/-- Stable insertion into a list sorted by `start`. -/
def insStart (e : Ent) : List Ent → List Ent
  | [] => [e]
  | x :: xs => if x.start < e.start then x :: insStart e xs else e :: x :: xs

/-- Model of `person_entities.sort(key=lambda x: x['start'])` (stable). -/
def sortStart : List Ent → List Ent
  | [] => []
  | x :: xs => insStart x (sortStart xs)

/-- The merging loop of the effective definition: one gap threshold —
a next span starting within 5 characters of the previous span's end is
joined with a single space, otherwise a new candidate starts. -/
def combineAux : List Ent → String → Int → List String
  | [], cur, _ => [cur]
  | e :: rest, cur, lastEnd =>
      if e.start - lastEnd ≤ 5 then combineAux rest (cur ++ " " ++ e.word) e.end_
      else cur :: combineAux rest e.word e.end_

/-- Model of `combined_names` built from the sorted person entities. -/
def combineNames : List Ent → List String
  | [] => []
  | p :: rest => combineAux rest p.word p.end_

/-- Python `max(xs, key=len)`: the first longest element wins. -/
def pickLongest : String → List String → String
  | best, [] => best
  | best, x :: xs =>
      if best.length < x.length then pickLongest x xs else pickLongest best xs

/-- The NER name block, including the `try/except`: on oracle failure the
name stays absent; only the first 1000 characters are passed to the NER. -/
def nerName (o : NerOracle) (text : String) : Option String :=
  match o (String.mk (text.data.take 1000)) with
  | .error _ => none
  | .ok ents =>
      match sortStart (personEnts ents) with
      | [] => none
      | p :: rest =>
          match combineAux rest p.word p.end_ with
          | [] => none
          | h :: t => clean_name (pickLongest h t)

/-- Model of `not details["name"] or len(details["name"]) < 4`. -/
def nameGuard : Option String → Bool
  | none => true
  | some s => s == "" || decide (s.length < 4)

def name_keywords : List String :=
  ["resume", "cv", "curriculum", "profile", "contact", "email", "phone",
   "education", "experience"]

/-- Model of `any(keyword in line.lower() for keyword in [...])`. -/
def kwHit (line : List Char) : Bool :=
  name_keywords.any fun k => isSub k.data (line.map Char.toLower)

def headUpper : List Char → Bool
  | c :: _ => asciiUpper c
  | [] => false

/-- Fallback 1 line scan: skip keyword lines; on the first line that looks
like a name (2-4 words, no digit, multi-character words capitalized) the
name becomes `clean_name(line)` and the loop breaks. -/
def fb1Lines : List (List Char) → Option String → Option String
  | [], cur => cur
  | l :: ls, cur =>
      let line := pyStrip l
      if kwHit line then fb1Lines ls cur
      else
        let words := pySplitWs line
        if decide (2 ≤ words.length) && decide (words.length ≤ 4)
            && !(line.any pyDigit)
            && words.all (fun w => decide (w.length ≤ 1) || headUpper w) then
          (clean_nameL line).map String.mk
        else fb1Lines ls cur

/-- Fallback 1: the first five lines of the text. -/
def fallback1 (cs : List Char) (cur : Option String) : Option String :=
  fb1Lines ((splitNl cs).take 5) cur

/-- Fallback 2: `re.search(r'^([A-Z][a-z]+(?:\s+[A-Z][a-z]+){1,3})', text,
re.MULTILINE)`; on a match the name becomes `clean_name(group(1))`. -/
def fallback2 (cs : List Char) (cur : Option String) : Option String :=
  match research nameRE cs with
  | some m =>
      match grpStr cs m.2.2 1 with
      | some g => (clean_nameL g).map String.mk
      | none => none
  | none => cur

/-- The name field after the NER attempt and both guarded fallbacks. -/
def nameVal (o : NerOracle) (text : String) : Option String :=
  let n0 := nerName o text
  let n1 := if nameGuard n0 then fallback1 text.data n0 else n0
  if nameGuard n1 then fallback2 text.data n1 else n1

/-- Model of `group(1)` of a college pattern match. -/
def cm (p : RE) (cs : List Char) : Option (List Char) :=
  (research p cs).bind fun m => grpStr cs m.2.2 1

/-- The abbreviation alternatives of college pattern 5, in source order. -/
def college_abbrevs : List (List Char) :=
  ["IIT".data, "NIT".data, "BITS".data, "VIT".data, "MIT".data, "IIM".data,
   "IIIT".data]

/-- Model of `\s+[A-Z][a-zA-Z]*` (IGNORECASE) at position `p`: a nonempty
whitespace run followed by a letter. -/
def cm5Tail (cs : List Char) (p : Nat) : Bool :=
  let r := ((cs.drop p).takeWhile pyWs).length
  decide (1 ≤ r) && (match cs[p + r]? with
    | some c => asciiAlpha c
    | none => false)

/-- Try the abbreviation alternatives at `pos`; the capture group is the
abbreviation itself. -/
def cm5Alts : List (List Char) → List Char → Nat → Option (List Char)
  | [], _, _ => none
  | a :: rest, cs, pos =>
      if ciStarts a (cs.drop pos) && cm5Tail cs (pos + a.length) then
        some (sliceL cs pos (pos + a.length))
      else cm5Alts rest cs pos

def cm5Go (cs : List Char) : Nat → Nat → Option (List Char)
  | 0, pos => if atWB cs pos then cm5Alts college_abbrevs cs pos else none
  | f + 1, pos =>
      match (if atWB cs pos then cm5Alts college_abbrevs cs pos else none) with
      | some g => some g
      | none => cm5Go cs f (pos + 1)

/-- College pattern 5, `\b(IIT|NIT|BITS|VIT|MIT|IIM|IIIT)\s+[A-Z][a-zA-Z]*`
(IGNORECASE), returning `group(1)` of the leftmost match. -/
def cm5 (cs : List Char) : Option (List Char) := cm5Go cs cs.length 0

/-- The college matchers, in cascade order; each returns `group(1)`. -/
def college_patterns : List (List Char → Option (List Char)) :=
  [cm collegeRE1, cm collegeRE2, cm collegeRE3, cm collegeRE4, cm5]

/-- The college cascade: on a match, clean; accept (and stop) only when
the cleaned length is between 5 and 150; otherwise try the next pattern. -/
def collegeLoop : List (List Char → Option (List Char)) → List Char → Option String
  | [], _ => none
  | m :: ms, cs =>
      match m cs with
      | some g =>
          let c := cleanCollege g
          if decide (5 ≤ c.length) && decide (c.length ≤ 150) then
            some (String.mk c)
          else collegeLoop ms cs
      | none => collegeLoop ms cs

def collegeVal (cs : List Char) : Option String :=
  collegeLoop college_patterns cs

def degree_patterns : List RE := [degreeRE1, degreeRE2, degreeRE3]

/-- The degree cascade: first match wins; the captured group is stripped
and its whitespace collapsed. -/
def degreeLoop : List RE → List Char → Option String
  | [], _ => none
  | p :: ps, cs =>
      match research p cs with
      | some m =>
          match grpStr cs m.2.2 1 with
          | some g => some (String.mk (collapseWs (pyStrip g)))
          | none => none
      | none => degreeLoop ps cs

def degreeVal (cs : List Char) : Option String := degreeLoop degree_patterns cs

/-- Number of capture groups defined in a pattern (`len(m.groups())`). -/
def numGrps : RE → Nat
  | .eps => 0
  | .cls _ => 0
  | .wb => 0
  | .bol => 0
  | .seq a b => numGrps a + numGrps b
  | .alt a b => numGrps a + numGrps b
  | .grp _ r => 1 + numGrps r
  | .star r _ => numGrps r

def cgpa_patterns : List RE := [cgpaRE1, cgpaRE2, cgpaRE3]

/-- The CGPA cascade: first match wins; with two defined groups and a
truthy `group(2)` the value is `"g1 / g2"`, otherwise `group(1)`. -/
def cgpaLoop : List RE → List Char → Option String
  | [], _ => none
  | p :: ps, cs =>
      match research p cs with
      | some m =>
          match grpStr cs m.2.2 1 with
          | none => none
          | some g1 =>
              match grpStr cs m.2.2 2 with
              | some g2 =>
                  if decide (2 ≤ numGrps p) && !g2.isEmpty then
                    some (String.mk (g1 ++ " / ".data ++ g2))
                  else some (String.mk g1)
              | none => some (String.mk g1)
      | none => cgpaLoop ps cs

def cgpaVal (cs : List Char) : Option String := cgpaLoop cgpa_patterns cs

/-- The effective (second) definition of `extract_details_huggingface`
from `parser.py`; the first definition at lines 48-219 is shadowed by it.
`sender_number` is accepted and unused, as in the source. -/
def extract_details_huggingface (ner : NerOracle) (text : String)
    (sender_number : Option String) : Details :=
  { name := nameVal ner text
    email := emailVal text.data
    phone := phoneVal text.data
    college := collegeVal text.data
    degree := degreeVal text.data
    cgpa := cgpaVal text.data }

/-! Engine soundness: guaranteed character counts

`minF ok r` under-approximates, for any match of `r`, the number of
consumed characters whose class is approved by `ok`; `minFG ok i r` does
the same for the span captured by group `i`. -/

def minF (ok : CC → Bool) : RE → Nat
  | .eps => 0
  | .cls c => if ok c then 1 else 0
  | .seq a b => minF ok a + minF ok b
  | .alt a b => min (minF ok a) (minF ok b)
  | .grp _ r => minF ok r
  | .star _ _ => 0
  | .wb => 0
  | .bol => 0

/-- Does group `i` occur syntactically in `r`? -/
def hasG (i : Nat) : RE → Bool
  | .eps => false
  | .cls _ => false
  | .wb => false
  | .bol => false
  | .seq a b => hasG i a || hasG i b
  | .alt a b => hasG i a || hasG i b
  | .grp j r => i == j || hasG i r
  | .star r _ => hasG i r

/-- Combine the group bounds of two subterms. -/
def combG (ga gb : Bool) (x y : Nat) : Nat :=
  match ga, gb with
  | true, true => min x y
  | true, false => x
  | false, true => y
  | false, false => 0

def minFG (ok : CC → Bool) (i : Nat) : RE → Nat
  | .eps => 0
  | .cls _ => 0
  | .wb => 0
  | .bol => 0
  | .seq a b => combG (hasG i a) (hasG i b) (minFG ok i a) (minFG ok i b)
  | .alt a b => combG (hasG i a) (hasG i b) (minFG ok i a) (minFG ok i b)
  | .grp j r =>
      if i = j then
        if hasG i r then min (minF ok r) (minFG ok i r) else minF ok r
      else minFG ok i r
  | .star r _ => minFG ok i r

/-! Class approximations used with `reM_sound` -/

def ccAny (_ : CC) : Bool := true

def ccDigitOnly : CC → Bool
  | .digit => true
  | _ => false

/-- Classes that can only match non-whitespace characters. -/
def ccNonWs : CC → Bool
  | .digit => true
  | .alpha => true
  | .upperA => true
  | .lowerA => true
  | .lit c => !pyWs c
  | .ilit c => !pyWs c
  | .emailLoc => true
  | .emailDom => true
  | .tld => true
  | .colonDash => true
  | .wsp => false
  | .notNl => false
  | .phSep => false
  | .colCls => false

/-- An accepted name: at least two words, length between 4 and 50. -/
def goodName (s : String) : Prop :=
  2 ≤ (pySplitWs s.data).length ∧ 4 ≤ s.length ∧ s.length ≤ 50

/-- The college cascade without pattern 5: the comparison cascade for the
refinement claim that pattern 5 is dead. -/
def college_patterns_first4 : List (List Char → Option (List Char)) :=
  [cm collegeRE1, cm collegeRE2, cm collegeRE3, cm collegeRE4]

def collegeValNo5 (cs : List Char) : Option String :=
  collegeLoop college_patterns_first4 cs

/-- An always-failing NER oracle (the capability raises). -/
def failNer : NerOracle := fun _ => Except.error "model load error"

/-- An NER oracle that returns no entities. -/
def emptyNer : NerOracle := fun _ => Except.ok []

/-- The record with every field absent. -/
def emptyDetails : Details :=
  { name := none, email := none, phone := none, college := none,
    degree := none, cgpa := none }

/-! Slice lemmas -/

theorem sliceL_refl (full : List Char) (p : Nat) : sliceL full p p = [] := by
  simp [sliceL]

theorem sliceL_split (full : List Char) {a b c : Nat} (h1 : a ≤ b) (h2 : b ≤ c) :
    sliceL full a c = sliceL full a b ++ sliceL full b c := by
  unfold sliceL
  have hc : c - a = (b - a) + (c - b) := by omega
  rw [hc, List.take_add, List.drop_drop]
  have hb : a + (b - a) = b := by omega
  rw [hb]

theorem countP_sliceL_split (f : Char → Bool) (full : List Char) {a b c : Nat}
    (h1 : a ≤ b) (h2 : b ≤ c) :
    (sliceL full a c).countP f
      = (sliceL full a b).countP f + (sliceL full b c).countP f := by
  rw [sliceL_split full h1 h2, List.countP_append]

theorem sliceL_cls (full : List Char) {p : Nat} {ch : Char}
    (h : full[p]? = some ch) : sliceL full p (p + 1) = [ch] := by
  obtain ⟨hlt, hv⟩ := List.getElem?_eq_some.mp h
  unfold sliceL
  rw [List.drop_eq_getElem_cons hlt]
  simp [hv]

theorem getElem?_lt {full : List Char} {p : Nat} {ch : Char}
    (h : full[p]? = some ch) : p < full.length :=
  (List.getElem?_eq_some.mp h).1

/-! Soundness of the matcher -/

/-- Soundness of the star loop, parameterised over the body's behaviour:
positions advance within bounds and every new capture satisfies the
body's capture property `Q`. -/
theorem reMStar_sound (full : List Char) (body : Nat → Caps → List (Nat × Caps))
    (lz : Bool) (Q : Nat × Nat × Nat → Prop)
    (hb : ∀ pos caps, pos ≤ full.length → ∀ pc ∈ body pos caps,
        (pos ≤ pc.1 ∧ pc.1 ≤ full.length) ∧
        ∃ new, pc.2 = new ++ caps ∧ ∀ e ∈ new,
          Q e ∧ pos ≤ e.2.1 ∧ e.2.1 ≤ e.2.2 ∧ e.2.2 ≤ pc.1) :
    ∀ (fuel pos : Nat) (caps : Caps), pos ≤ full.length →
    ∀ pc ∈ reMStar body lz fuel pos caps,
      (pos ≤ pc.1 ∧ pc.1 ≤ full.length) ∧
      ∃ new, pc.2 = new ++ caps ∧ ∀ e ∈ new,
        Q e ∧ pos ≤ e.2.1 ∧ e.2.1 ≤ e.2.2 ∧ e.2.2 ≤ pc.1 := by
  intro fuel
  induction fuel with
  | zero =>
      intro pos caps hpos pc hpc
      simp only [reMStar, List.mem_singleton] at hpc
      subst hpc
      exact ⟨⟨Nat.le_refl _, hpos⟩, [], rfl, by simp⟩
  | succ f ih =>
      intro pos caps hpos pc hpc
      simp only [reMStar] at hpc
      have hcase : pc = (pos, caps) ∨
          pc ∈ (body pos caps).flatMap (fun x => reMStar body lz f x.1 x.2) := by
        cases lz with
        | true =>
            rw [if_pos rfl] at hpc
            rcases List.mem_cons.mp hpc with h | h
            · exact Or.inl h
            · exact Or.inr h
        | false =>
            rw [if_neg (by simp)] at hpc
            rcases List.mem_append.mp hpc with h | h
            · exact Or.inr h
            · exact Or.inl (by simpa using h)
      rcases hcase with h | h
      · subst h
        exact ⟨⟨Nat.le_refl _, hpos⟩, [], rfl, by simp⟩
      · rcases List.mem_flatMap.mp h with ⟨pc1, hpc1, hpc2⟩
        obtain ⟨⟨h11, h12⟩, new1, hc1, hq1⟩ := hb pos caps hpos pc1 hpc1
        obtain ⟨⟨h21, h22⟩, new2, hc2, hq2⟩ := ih pc1.1 pc1.2 h12 pc hpc2
        refine ⟨⟨Nat.le_trans h11 h21, h22⟩, new2 ++ new1, ?_, ?_⟩
        · rw [hc2, hc1, List.append_assoc]
        · intro e he
          rcases List.mem_append.mp he with he2 | he1
          · obtain ⟨hq, ha, hab, hbb⟩ := hq2 e he2
            exact ⟨hq, Nat.le_trans h11 ha, hab, hbb⟩
          · obtain ⟨hq, ha, hab, hbb⟩ := hq1 e he1
            exact ⟨hq, ha, hab, Nat.le_trans hbb h21⟩

theorem combG_le_left {gb : Bool} (x y : Nat) : combG true gb x y ≤ x := by
  cases gb <;> simp [combG, Nat.min_le_left]

theorem combG_le_right {ga : Bool} (x y : Nat) : combG ga true x y ≤ y := by
  cases ga <;> simp [combG, Nat.min_le_right]

/-- Soundness of the matcher: every produced end position stays within
bounds, the consumed slice contains at least `minF ok r` approved
characters, and every newly recorded capture span lies inside the match
and contains at least `minFG ok i r` approved characters. -/
theorem reM_sound (f : Char → Bool) (ok : CC → Bool)
    (hok : ∀ c ch, ok c = true → CC.mem c ch = true → f ch = true)
    (full : List Char) :
    ∀ (r : RE) (fuel pos : Nat) (caps : Caps), pos ≤ full.length →
    ∀ pc ∈ reM full fuel r pos caps,
      (pos ≤ pc.1 ∧ pc.1 ≤ full.length ∧
        minF ok r ≤ (sliceL full pos pc.1).countP f) ∧
      ∃ new, pc.2 = new ++ caps ∧ ∀ e ∈ new,
        hasG e.1 r = true ∧ pos ≤ e.2.1 ∧ e.2.1 ≤ e.2.2 ∧ e.2.2 ≤ pc.1 ∧
        minFG ok e.1 r ≤ (sliceL full e.2.1 e.2.2).countP f := by
  intro r
  induction r with
  | eps =>
      intro fuel pos caps hpos pc hpc
      simp only [reM, List.mem_singleton] at hpc
      subst hpc
      exact ⟨⟨Nat.le_refl _, hpos, by simp [minF, sliceL_refl]⟩, [], rfl, by simp⟩
  | cls c =>
      intro fuel pos caps hpos pc hpc
      simp only [reM] at hpc
      split at hpc
      case h_2 => simp at hpc
      case h_1 ch hx =>
          by_cases hm : CC.mem c ch = true
          · rw [if_pos hm] at hpc
            simp only [List.mem_singleton] at hpc
            subst hpc
            have hlt := getElem?_lt hx
            refine ⟨⟨Nat.le_succ _, hlt, ?_⟩, [], rfl, by simp⟩
            rw [sliceL_cls full hx]
            simp only [minF]
            by_cases ho : ok c = true
            · rw [if_pos ho]
              have hf : f ch = true := hok c ch ho hm
              simp [List.countP_cons, hf]
            · rw [if_neg ho]
              exact Nat.zero_le _
          · rw [if_neg hm] at hpc
            simp at hpc
  | seq a b iha ihb =>
      intro fuel pos caps hpos pc hpc
      simp only [reM] at hpc
      rcases List.mem_flatMap.mp hpc with ⟨pc1, hpc1, hpc2⟩
      obtain ⟨⟨h11, h12, hcnt1⟩, new1, hc1, hq1⟩ := iha fuel pos caps hpos pc1 hpc1
      obtain ⟨⟨h21, h22, hcnt2⟩, new2, hc2, hq2⟩ := ihb fuel pc1.1 pc1.2 h12 pc hpc2
      refine ⟨⟨Nat.le_trans h11 h21, h22, ?_⟩,
              new2 ++ new1, by rw [hc2, hc1, List.append_assoc], ?_⟩
      · rw [countP_sliceL_split f full h11 h21]
        simp only [minF]
        omega
      · intro e he
        rcases List.mem_append.mp he with he2 | he1
        · obtain ⟨hg, ha', hab, hbb, hcnt⟩ := hq2 e he2
          refine ⟨?_, Nat.le_trans h11 ha', hab, hbb, ?_⟩
          · show hasG e.1 (RE.seq a b) = true
            simp [hasG, hg]
          · refine Nat.le_trans ?_ hcnt
            show minFG ok e.1 (RE.seq a b) ≤ minFG ok e.1 b
            simp only [minFG, hg]
            exact combG_le_right _ _
        · obtain ⟨hg, ha', hab, hbb, hcnt⟩ := hq1 e he1
          refine ⟨?_, ha', hab, Nat.le_trans hbb h21, ?_⟩
          · show hasG e.1 (RE.seq a b) = true
            simp [hasG, hg]
          · refine Nat.le_trans ?_ hcnt
            show minFG ok e.1 (RE.seq a b) ≤ minFG ok e.1 a
            simp only [minFG, hg]
            exact combG_le_left _ _
  | alt a b iha ihb =>
      intro fuel pos caps hpos pc hpc
      simp only [reM] at hpc
      rcases List.mem_append.mp hpc with h | h
      · obtain ⟨⟨h1, h2, hcnt⟩, new, hc, hq⟩ := iha fuel pos caps hpos pc h
        refine ⟨⟨h1, h2, Nat.le_trans ?_ hcnt⟩, new, hc, ?_⟩
        · simp only [minF]
          exact Nat.min_le_left _ _
        · intro e he
          obtain ⟨hg, ha', hab, hbb, hcnt'⟩ := hq e he
          refine ⟨?_, ha', hab, hbb, Nat.le_trans ?_ hcnt'⟩
          · show hasG e.1 (RE.alt a b) = true
            simp [hasG, hg]
          · show minFG ok e.1 (RE.alt a b) ≤ minFG ok e.1 a
            simp only [minFG, hg]
            exact combG_le_left _ _
      · obtain ⟨⟨h1, h2, hcnt⟩, new, hc, hq⟩ := ihb fuel pos caps hpos pc h
        refine ⟨⟨h1, h2, Nat.le_trans ?_ hcnt⟩, new, hc, ?_⟩
        · simp only [minF]
          exact Nat.min_le_right _ _
        · intro e he
          obtain ⟨hg, ha', hab, hbb, hcnt'⟩ := hq e he
          refine ⟨?_, ha', hab, hbb, Nat.le_trans ?_ hcnt'⟩
          · show hasG e.1 (RE.alt a b) = true
            simp [hasG, hg]
          · show minFG ok e.1 (RE.alt a b) ≤ minFG ok e.1 b
            simp only [minFG, hg]
            exact combG_le_right _ _
  | grp i r ihr =>
      intro fuel pos caps hpos pc hpc
      simp only [reM] at hpc
      rcases List.mem_map.mp hpc with ⟨pc1, hpc1, heq⟩
      obtain ⟨⟨h1, h2, hcnt⟩, new1, hc1, hq1⟩ := ihr fuel pos caps hpos pc1 hpc1
      subst heq
      refine ⟨⟨h1, h2, hcnt⟩, (i, pos, pc1.1) :: new1, by simp [hc1], ?_⟩
      intro e he
      rcases List.mem_cons.mp he with he0 | he1
      · subst he0
        refine ⟨?_, Nat.le_refl _, h1, Nat.le_refl _, ?_⟩
        · show hasG i (RE.grp i r) = true
          simp [hasG]
        · show minFG ok i (RE.grp i r) ≤ _
          simp only [minFG, if_pos rfl]
          by_cases hgr : hasG i r = true
          · rw [if_pos hgr]
            exact Nat.le_trans (Nat.min_le_left _ _) hcnt
          · rw [if_neg hgr]
            exact Nat.le_trans (Nat.le_refl _) hcnt
      · obtain ⟨hg, ha', hab, hbb, hcnt'⟩ := hq1 e he1
        refine ⟨?_, ha', hab, hbb, Nat.le_trans ?_ hcnt'⟩
        · show hasG e.1 (RE.grp i r) = true
          simp [hasG, hg]
        · show minFG ok e.1 (RE.grp i r) ≤ minFG ok e.1 r
          simp only [minFG]
          by_cases hij : e.1 = i
          · rw [if_pos hij, if_pos hg]
            exact Nat.min_le_right _ _
          · rw [if_neg hij]
  | star r lzi ihr =>
      intro fuel pos caps hpos pc hpc
      simp only [reM] at hpc
      have hb : ∀ pos' caps', pos' ≤ full.length →
          ∀ pc' ∈ reM full fuel r pos' caps',
            (pos' ≤ pc'.1 ∧ pc'.1 ≤ full.length) ∧
            ∃ new, pc'.2 = new ++ caps' ∧ ∀ e ∈ new,
              (hasG e.1 r = true ∧
                minFG ok e.1 r ≤ (sliceL full e.2.1 e.2.2).countP f) ∧
              pos' ≤ e.2.1 ∧ e.2.1 ≤ e.2.2 ∧ e.2.2 ≤ pc'.1 := by
        intro pos' caps' hpos' pc' hpc'
        obtain ⟨⟨h1, h2, _⟩, new, hc, hq⟩ := ihr fuel pos' caps' hpos' pc' hpc'
        refine ⟨⟨h1, h2⟩, new, hc, ?_⟩
        intro e he
        obtain ⟨hg, ha', hab, hbb, hcnt'⟩ := hq e he
        exact ⟨⟨hg, hcnt'⟩, ha', hab, hbb⟩
      obtain ⟨⟨h1, h2⟩, new, hc, hq⟩ :=
        reMStar_sound full (reM full fuel r) lzi _ hb fuel pos caps hpos pc hpc
      refine ⟨⟨h1, h2, by simp [minF]⟩, new, hc, ?_⟩
      intro e he
      obtain ⟨⟨hg, hcnt'⟩, ha', hab, hbb⟩ := hq e he
      exact ⟨by simpa [hasG] using hg, ha', hab, hbb, by simpa [minFG] using hcnt'⟩
  | wb =>
      intro fuel pos caps hpos pc hpc
      simp only [reM] at hpc
      by_cases hw : atWB full pos = true
      · rw [if_pos hw] at hpc
        simp only [List.mem_singleton] at hpc
        subst hpc
        exact ⟨⟨Nat.le_refl _, hpos, by simp [minF, sliceL_refl]⟩, [], rfl, by simp⟩
      · rw [if_neg hw] at hpc
        simp at hpc
  | bol =>
      intro fuel pos caps hpos pc hpc
      simp only [reM] at hpc
      by_cases hw : atBOL full pos = true
      · rw [if_pos hw] at hpc
        simp only [List.mem_singleton] at hpc
        subst hpc
        exact ⟨⟨Nat.le_refl _, hpos, by simp [minF, sliceL_refl]⟩, [], rfl, by simp⟩
      · rw [if_neg hw] at hpc
        simp at hpc

/-- Soundness transported to `research`. -/
theorem research_sound (f : Char → Bool) (ok : CC → Bool)
    (hok : ∀ c ch, ok c = true → CC.mem c ch = true → f ch = true)
    (r : RE) (full : List Char) :
    ∀ m, research r full = some m →
      (m.1 ≤ m.2.1 ∧ m.2.1 ≤ full.length ∧
        minF ok r ≤ (sliceL full m.1 m.2.1).countP f) ∧
      ∀ e ∈ m.2.2, hasG e.1 r = true ∧ m.1 ≤ e.2.1 ∧ e.2.1 ≤ e.2.2 ∧
        e.2.2 ≤ m.2.1 ∧ minFG ok e.1 r ≤ (sliceL full e.2.1 e.2.2).countP f := by
  have main : ∀ (fu pos : Nat), pos + fu ≤ full.length →
      ∀ m, searchGo r full fu pos = some m →
        (m.1 ≤ m.2.1 ∧ m.2.1 ≤ full.length ∧
          minF ok r ≤ (sliceL full m.1 m.2.1).countP f) ∧
        ∀ e ∈ m.2.2, hasG e.1 r = true ∧ m.1 ≤ e.2.1 ∧ e.2.1 ≤ e.2.2 ∧
          e.2.2 ≤ m.2.1 ∧ minFG ok e.1 r ≤ (sliceL full e.2.1 e.2.2).countP f := by
    intro fu
    induction fu with
    | zero =>
        intro pos hpos m hm
        unfold searchGo at hm
        split at hm
        · next pc tail hr =>
            have hmem : pc ∈ reM full (full.length + 2) r pos [] := by
              rw [hr]; exact List.mem_cons_self _ _
            obtain ⟨⟨h1, h2, hcnt⟩, new, hc, hq⟩ :=
              reM_sound f ok hok full r _ pos [] (by omega) pc hmem
            cases hm
            refine ⟨⟨h1, h2, hcnt⟩, ?_⟩
            intro e he
            have he' : e ∈ new := by
              have : pc.2 = new := by simpa using hc
              rw [← this]; exact he
            exact hq e he'
        · exact absurd hm (by simp)
    | succ f' ih =>
        intro pos hpos m hm
        unfold searchGo at hm
        split at hm
        · next pc tail hr =>
            have hmem : pc ∈ reM full (full.length + 2) r pos [] := by
              rw [hr]; exact List.mem_cons_self _ _
            obtain ⟨⟨h1, h2, hcnt⟩, new, hc, hq⟩ :=
              reM_sound f ok hok full r _ pos [] (by omega) pc hmem
            cases hm
            refine ⟨⟨h1, h2, hcnt⟩, ?_⟩
            intro e he
            have he' : e ∈ new := by
              have : pc.2 = new := by simpa using hc
              rw [← this]; exact he
            exact hq e he'
        · exact ih (pos + 1) (by omega) m hm
  intro m hm
  exact main full.length 0 (by omega) m hm


theorem pyWs_eq_true {c : Char} :
    pyWs c = true ↔ c.toNat = 32 ∨ (9 ≤ c.toNat ∧ c.toNat ≤ 13) := by
  simp [pyWs]

theorem pyDigit_eq_true {c : Char} :
    pyDigit c = true ↔ 48 ≤ c.toNat ∧ c.toNat ≤ 57 := by
  simp [pyDigit]

theorem asciiUpper_eq_true {c : Char} :
    asciiUpper c = true ↔ 65 ≤ c.toNat ∧ c.toNat ≤ 90 := by
  simp [asciiUpper]

theorem asciiLower_eq_true {c : Char} :
    asciiLower c = true ↔ 97 ≤ c.toNat ∧ c.toNat ≤ 122 := by
  simp [asciiLower]

theorem asciiAlpha_eq_true {c : Char} :
    asciiAlpha c = true ↔ (65 ≤ c.toNat ∧ c.toNat ≤ 90) ∨ (97 ≤ c.toNat ∧ c.toNat ≤ 122) := by
  simp [asciiAlpha, asciiUpper, asciiLower]

theorem not_pyWs_arith {c : Char}
    (h : c.toNat ≠ 32 ∧ (c.toNat < 9 ∨ 13 < c.toNat)) : (!pyWs c) = true := by
  cases hpw : pyWs c
  · rfl
  · exact absurd (pyWs_eq_true.mp hpw) (by omega)

theorem hok_any :
    ∀ c ch, ccAny c = true → CC.mem c ch = true → (fun _ : Char => true) ch = true := by
  intro c ch _ _
  rfl

theorem hok_digit :
    ∀ c ch, ccDigitOnly c = true → CC.mem c ch = true → pyDigit ch = true := by
  intro c ch hc hm
  cases c <;> simp [ccDigitOnly] at hc
  simpa [CC.mem] using hm

theorem hok_nonWs :
    ∀ c ch, ccNonWs c = true → CC.mem c ch = true → (!pyWs ch) = true := by
  intro c ch hc hm
  cases c with
  | digit =>
      have := pyDigit_eq_true.mp (by simpa [CC.mem] using hm)
      exact not_pyWs_arith (by omega)
  | alpha =>
      have := asciiAlpha_eq_true.mp (by simpa [CC.mem] using hm)
      exact not_pyWs_arith (by omega)
  | upperA =>
      have := asciiUpper_eq_true.mp (by simpa [CC.mem] using hm)
      exact not_pyWs_arith (by omega)
  | lowerA =>
      have := asciiLower_eq_true.mp (by simpa [CC.mem] using hm)
      exact not_pyWs_arith (by omega)
  | lit c0 =>
      have hm' : ch = c0 := by simpa [CC.mem] using hm
      subst hm'
      simpa [ccNonWs] using hc
  | ilit c0 =>
      have hlm : lomap c0 = lomap ch := by simpa [CC.mem, ciEq] using hm
      have hc' : pyWs c0 = false := by simpa [ccNonWs] using hc
      have hcn : ¬(c0.toNat = 32 ∨ (9 ≤ c0.toNat ∧ c0.toNat ≤ 13)) := by
        intro h
        rw [pyWs_eq_true.mpr h] at hc'
        simp at hc'
      apply not_pyWs_arith
      unfold lomap at hlm
      by_cases h1 : asciiUpper c0 = true
      · rw [if_pos h1] at hlm
        have hb1 := asciiUpper_eq_true.mp h1
        by_cases h2 : asciiUpper ch = true
        · have hb2 := asciiUpper_eq_true.mp h2
          omega
        · rw [if_neg h2] at hlm
          omega
      · rw [if_neg h1] at hlm
        by_cases h2 : asciiUpper ch = true
        · have hb2 := asciiUpper_eq_true.mp h2
          omega
        · rw [if_neg h2] at hlm
          omega
  | emailLoc =>
      simp only [CC.mem, Bool.or_eq_true, beq_iff_eq] at hm
      rcases hm with ((((((ha | hd) | h) | h) | h) | h) | h)
      · exact not_pyWs_arith (by have := asciiAlpha_eq_true.mp ha; omega)
      · exact not_pyWs_arith (by have := pyDigit_eq_true.mp hd; omega)
      all_goals (subst h; decide)
  | emailDom =>
      simp only [CC.mem, Bool.or_eq_true, beq_iff_eq] at hm
      rcases hm with ((ha | hd) | h) | h
      · exact not_pyWs_arith (by have := asciiAlpha_eq_true.mp ha; omega)
      · exact not_pyWs_arith (by have := pyDigit_eq_true.mp hd; omega)
      all_goals (subst h; decide)
  | tld =>
      simp only [CC.mem, Bool.or_eq_true, beq_iff_eq] at hm
      rcases hm with ha | h
      · exact not_pyWs_arith (by have := asciiAlpha_eq_true.mp ha; omega)
      · subst h; decide
  | colonDash =>
      simp only [CC.mem, Bool.or_eq_true, beq_iff_eq] at hm
      rcases hm with h | h
      all_goals (subst h; decide)
  | wsp => simp [ccNonWs] at hc
  | notNl => simp [ccNonWs] at hc
  | phSep => simp [ccNonWs] at hc
  | colCls => simp [ccNonWs] at hc

/-! Counting and length lemmas for the cleaning passes -/

theorem countP_true_eq_length (l : List Char) :
    l.countP (fun _ => true) = l.length := by
  induction l with
  | nil => simp
  | cons c rest ih => simp [List.countP_cons, ih]

theorem countP_le_filter_length {p q : Char → Bool}
    (h : ∀ c, p c = true → q c = true) :
    ∀ l : List Char, l.countP p ≤ (l.filter q).length := by
  intro l
  induction l with
  | nil => simp
  | cons c rest ih =>
      rw [List.countP_cons, List.filter_cons]
      by_cases hp : p c = true
      · rw [h c hp]
        simp [hp]
        omega
      · have hp' : p c = false := by simpa using hp
        rw [hp']
        by_cases hq : q c = true <;> simp [hq] <;> omega

theorem countP_nonWs_collapseWs (l : List Char) :
    (collapseWs l).countP (fun c => !pyWs c) = l.countP (fun c => !pyWs c) ∧
    (skipWsRun l).countP (fun c => !pyWs c) = l.countP (fun c => !pyWs c) := by
  induction l with
  | nil => simp [collapseWs, skipWsRun]
  | cons c rest ih =>
      by_cases hw : pyWs c = true
      · constructor
        · rw [collapseWs, if_pos hw, List.countP_cons, List.countP_cons, ih.2]
          simp [hw]
          decide
        · rw [skipWsRun, if_pos hw, List.countP_cons, ih.2]
          simp [hw]
      · have hw' : pyWs c = false := by simpa using hw
        constructor
        · rw [collapseWs, if_neg hw, List.countP_cons, List.countP_cons, ih.1]
        · rw [skipWsRun, if_neg hw, List.countP_cons, List.countP_cons, ih.1]

theorem countP_nonWs_dropWhile (l : List Char) :
    (l.dropWhile pyWs).countP (fun c => !pyWs c) = l.countP (fun c => !pyWs c) := by
  induction l with
  | nil => simp
  | cons c rest ih =>
      by_cases hw : pyWs c = true
      · rw [List.dropWhile_cons_of_pos hw, ih, List.countP_cons]
        simp [hw]
      · rw [List.dropWhile_cons_of_neg (by simpa using hw)]

theorem countP_nonWs_pyStrip (l : List Char) :
    (pyStrip l).countP (fun c => !pyWs c) = l.countP (fun c => !pyWs c) := by
  unfold pyStrip
  rw [(List.reverse_perm _).countP_eq, countP_nonWs_dropWhile,
      (List.reverse_perm _).countP_eq, countP_nonWs_dropWhile]

theorem ne_nil_of_countP_pos {p : Char → Bool} {l : List Char}
    (h : 1 ≤ l.countP p) : l ≠ [] := by
  intro hl
  subst hl
  simp at h

theorem length_dropWhile_le (p : Char → Bool) (l : List Char) :
    (l.dropWhile p).length ≤ l.length := by
  induction l with
  | nil => simp
  | cons c rest ih =>
      by_cases hp : p c = true
      · rw [List.dropWhile_cons_of_pos hp]
        simp only [List.length_cons]
        omega
      · rw [List.dropWhile_cons_of_neg (by simpa using hp)]

theorem length_pyStrip_le (l : List Char) : (pyStrip l).length ≤ l.length := by
  unfold pyStrip
  rw [List.length_reverse]
  calc ((l.dropWhile pyWs).reverse.dropWhile pyWs).length
      ≤ (l.dropWhile pyWs).reverse.length := length_dropWhile_le _ _
    _ = (l.dropWhile pyWs).length := List.length_reverse _
    _ ≤ l.length := length_dropWhile_le _ _

theorem length_collapseWs_le (l : List Char) :
    (collapseWs l).length ≤ l.length ∧ (skipWsRun l).length ≤ l.length := by
  induction l with
  | nil => simp [collapseWs, skipWsRun]
  | cons c rest ih =>
      obtain ⟨ih1, ih2⟩ := ih
      by_cases hw : pyWs c = true
      · constructor
        · rw [collapseWs, if_pos hw]
          simp only [List.length_cons]
          omega
        · rw [skipWsRun, if_pos hw]
          simp only [List.length_cons]
          omega
      · constructor
        · rw [collapseWs, if_neg hw]
          simp only [List.length_cons]
          omega
        · rw [skipWsRun, if_neg hw]
          simp only [List.length_cons]
          omega

theorem length_subDelGo_le (m : List Char → Option Nat) :
    ∀ (f : Nat) (l : List Char), (subDelGo m f l).length ≤ l.length := by
  intro f
  induction f with
  | zero => intro l; simp [subDelGo]
  | succ f' ih =>
      intro l
      cases l with
      | nil => simp [subDelGo]
      | cons c rest =>
          rw [subDelGo]
          cases m (c :: rest) with
          | some n =>
              simp only
              calc (subDelGo m f' ((c :: rest).drop n)).length
                  ≤ ((c :: rest).drop n).length := ih _
                _ ≤ (c :: rest).length := by rw [List.length_drop]; omega
          | none =>
              simp only [List.length_cons]
              have := ih rest
              omega

theorem length_subDel_le (m : List Char → Option Nat) (l : List Char) :
    (subDel m l).length ≤ l.length := length_subDelGo_le m l.length l

theorem length_cleanCollege_le (g : List Char) :
    (cleanCollege g).length ≤ g.length := by
  unfold cleanCollege
  calc (pyStrip (subDel eduLen (subDel yrPresentLen (subDel yrRangeLen
          (collapseWs (pyStrip g)))))).length
      ≤ (subDel eduLen (subDel yrPresentLen (subDel yrRangeLen
          (collapseWs (pyStrip g))))).length := length_pyStrip_le _
    _ ≤ (subDel yrPresentLen (subDel yrRangeLen
          (collapseWs (pyStrip g)))).length := length_subDel_le _ _
    _ ≤ (subDel yrRangeLen (collapseWs (pyStrip g))).length := length_subDel_le _ _
    _ ≤ (collapseWs (pyStrip g)).length := length_subDel_le _ _
    _ ≤ (pyStrip g).length := (length_collapseWs_le _).1
    _ ≤ g.length := length_pyStrip_le _

/-! Non-emptiness of extracted field values -/

theorem string_mk_eq_empty {l : List Char} (h : String.mk l = "") : l = [] := by
  have := congrArg String.data h
  simpa using this

theorem grpStr_mem {cs : List Char} {caps : Caps} {i : Nat} {g : List Char}
    (h : grpStr cs caps i = some g) :
    ∃ a b, g = sliceL cs a b ∧ (i, a, b) ∈ caps := by
  unfold grpStr grpSpan at h
  cases hf : caps.find? (fun e => e.1 == i) with
  | none => rw [hf] at h; simp at h
  | some e =>
      rw [hf] at h
      simp only [Option.map_some'] at h
      obtain ⟨i', a, b⟩ := e
      have hpred : i' = i := by simpa using List.find?_some hf
      subst hpred
      have hmem := List.mem_of_find?_eq_some hf
      exact ⟨a, b, by simpa using h.symm, hmem⟩

theorem emailVal_ne_empty {cs : List Char} {s : String}
    (h : emailVal cs = some s) : s ≠ "" := by
  unfold emailVal at h
  cases hr : research emailRE cs with
  | none => rw [hr] at h; simp at h
  | some m =>
      rw [hr] at h
      simp only [Option.map_some'] at h
      obtain ⟨⟨h1, h2, hcnt⟩, _⟩ :=
        research_sound (fun _ => true) ccAny hok_any emailRE cs m hr
      have h6 : minF ccAny emailRE = 6 := by decide
      rw [h6, countP_true_eq_length] at hcnt
      intro hs
      rw [← (Option.some.inj h)] at hs
      rw [string_mk_eq_empty hs] at hcnt
      simp at hcnt

theorem digit_not_strip : ∀ c, pyDigit c = true → (!phoneStripCh c) = true := by
  intro c h
  cases hs : phoneStripCh c
  · rfl
  · exfalso
    have hd := pyDigit_eq_true.mp h
    simp only [phoneStripCh, Bool.or_eq_true, beq_iff_eq] at hs
    rcases hs with (((h1 | h1) | h1) | h1) | h1
    · subst h1; exact absurd h (by decide)
    · subst h1; exact absurd h (by decide)
    · have := pyWs_eq_true.mp h1; omega
    · subst h1; exact absurd h (by decide)
    · subst h1; exact absurd h (by decide)

theorem phoneMatch_ne_empty {p : RE} {cs : List Char} {m : Nat × Nat × Caps}
    (hmin : 1 ≤ minF ccDigitOnly p) (hr : research p cs = some m) :
    String.mk ((sliceL cs m.1 m.2.1).filter fun c => !phoneStripCh c) ≠ "" := by
  obtain ⟨⟨h1, h2, hcnt⟩, _⟩ :=
    research_sound pyDigit ccDigitOnly hok_digit p cs m hr
  have hfil := countP_le_filter_length digit_not_strip (sliceL cs m.1 m.2.1)
  intro hs
  rw [string_mk_eq_empty hs] at hfil
  simp only [List.length_nil, Nat.le_zero] at hfil
  omega

theorem phoneVal_ne_empty {cs : List Char} {s : String}
    (h : phoneVal cs = some s) : s ≠ "" := by
  unfold phoneVal phone_patterns at h
  simp only [phoneLoop] at h
  split at h
  · next m hr =>
      cases h
      exact phoneMatch_ne_empty (by decide) hr
  · next hr =>
      split at h
      · next m hr2 =>
          cases h
          exact phoneMatch_ne_empty (by decide) hr2
      · next hr2 =>
          split at h
          · next m hr3 =>
              cases h
              exact phoneMatch_ne_empty (by decide) hr3
          · next hr3 => simp at h

theorem degreeMatch_ne_empty {p : RE} {cs : List Char} {m : Nat × Nat × Caps}
    {g : List Char}
    (hmin : 1 ≤ minFG ccNonWs 1 p) (hr : research p cs = some m)
    (hg : grpStr cs m.2.2 1 = some g) :
    String.mk (collapseWs (pyStrip g)) ≠ "" := by
  obtain ⟨a, b, hgs, hmem⟩ := grpStr_mem hg
  obtain ⟨_, hcaps⟩ :=
    research_sound (fun c => !pyWs c) ccNonWs hok_nonWs p cs m hr
  obtain ⟨_, _, _, _, hcnt⟩ := hcaps (1, a, b) hmem
  have hcnt' : minFG ccNonWs 1 p ≤ (sliceL cs a b).countP (fun c => !pyWs c) := hcnt
  intro hs
  have hpres : (collapseWs (pyStrip g)).countP (fun c => !pyWs c)
      = g.countP (fun c => !pyWs c) := by
    rw [(countP_nonWs_collapseWs _).1, countP_nonWs_pyStrip]
  rw [string_mk_eq_empty hs] at hpres
  simp only [List.countP_nil] at hpres
  rw [hgs] at hpres
  rw [← hpres] at hcnt'
  omega

theorem degreeVal_ne_empty {cs : List Char} {s : String}
    (h : degreeVal cs = some s) : s ≠ "" := by
  unfold degreeVal degree_patterns at h
  simp only [degreeLoop] at h
  split at h
  · next m hr =>
      split at h
      · next g hg =>
          cases h
          exact degreeMatch_ne_empty (by decide) hr hg
      · next hg => simp at h
  · next hr =>
      split at h
      · next m hr2 =>
          split at h
          · next g hg =>
              cases h
              exact degreeMatch_ne_empty (by decide) hr2 hg
          · next hg => simp at h
      · next hr2 =>
          split at h
          · next m hr3 =>
              split at h
              · next g hg =>
                  cases h
                  exact degreeMatch_ne_empty (by decide) hr3 hg
              · next hg => simp at h
          · next hr3 => simp at h

theorem cgpaG1_ne_nil {p : RE} {cs : List Char} {m : Nat × Nat × Caps}
    {g1 : List Char}
    (hmin : 1 ≤ minFG ccAny 1 p) (hr : research p cs = some m)
    (hg : grpStr cs m.2.2 1 = some g1) : g1 ≠ [] := by
  obtain ⟨a, b, hgs, hmem⟩ := grpStr_mem hg
  obtain ⟨_, hcaps⟩ :=
    research_sound (fun _ => true) ccAny hok_any p cs m hr
  obtain ⟨_, _, _, _, hcnt⟩ := hcaps (1, a, b) hmem
  have hcnt' : minFG ccAny 1 p ≤ ((sliceL cs a b).countP fun _ => true) := hcnt
  rw [countP_true_eq_length] at hcnt'
  intro hnil
  rw [hgs] at hnil
  rw [hnil] at hcnt'
  simp at hcnt'
  omega

theorem cgpaCase_ne_empty {p : RE} {cs : List Char} {m : Nat × Nat × Caps}
    {g1 : List Char} {s : String}
    (hmin : 1 ≤ minFG ccAny 1 p) (hr : research p cs = some m)
    (hg : grpStr cs m.2.2 1 = some g1)
    (h : s = String.mk g1 ∨ ∃ g2, s = String.mk (g1 ++ " / ".data ++ g2)) :
    s ≠ "" := by
  have hne := cgpaG1_ne_nil hmin hr hg
  rcases h with h | ⟨g2, h⟩
  · intro hs
    rw [h] at hs
    exact hne (string_mk_eq_empty hs)
  · intro hs
    rw [h] at hs
    have := string_mk_eq_empty hs
    rcases List.append_eq_nil.mp (List.append_eq_nil.mp this).1 with ⟨h1, _⟩
    exact hne h1

theorem cgpaVal_ne_empty {cs : List Char} {s : String}
    (h : cgpaVal cs = some s) : s ≠ "" := by
  unfold cgpaVal cgpa_patterns at h
  simp only [cgpaLoop] at h
  split at h
  · next m hr =>
      split at h
      · next hg => simp at h
      · next g1 hg =>
          split at h
          · next g2 hg2 =>
              split at h
              · cases h
                exact cgpaCase_ne_empty (by decide) hr hg (Or.inr ⟨g2, rfl⟩)
              · cases h
                exact cgpaCase_ne_empty (by decide) hr hg (Or.inl rfl)
          · next hg2 =>
              cases h
              exact cgpaCase_ne_empty (by decide) hr hg (Or.inl rfl)
  · next hr =>
      split at h
      · next m hr2 =>
          split at h
          · next hg => simp at h
          · next g1 hg =>
              split at h
              · next g2 hg2 =>
                  split at h
                  · cases h
                    exact cgpaCase_ne_empty (by decide) hr2 hg (Or.inr ⟨g2, rfl⟩)
                  · cases h
                    exact cgpaCase_ne_empty (by decide) hr2 hg (Or.inl rfl)
              · next hg2 =>
                  cases h
                  exact cgpaCase_ne_empty (by decide) hr2 hg (Or.inl rfl)
      · next hr2 =>
          split at h
          · next m hr3 =>
              split at h
              · next hg => simp at h
              · next g1 hg =>
                  split at h
                  · next g2 hg2 =>
                      split at h
                      · cases h
                        exact cgpaCase_ne_empty (by decide) hr3 hg (Or.inr ⟨g2, rfl⟩)
                      · cases h
                        exact cgpaCase_ne_empty (by decide) hr3 hg (Or.inl rfl)
                  · next hg2 =>
                      cases h
                      exact cgpaCase_ne_empty (by decide) hr3 hg (Or.inl rfl)
          · next hr3 => simp at h

/-! `clean_name` always validates its output -/


theorem clean_nameL_good {l r : List Char} (h : clean_nameL l = some r) :
    2 ≤ (pySplitWs r).length ∧ 4 ≤ r.length ∧ r.length ≤ 50 := by
  unfold clean_nameL at h
  dsimp only at h
  split at h
  · exact absurd h (by simp)
  · split at h
    · next hguard =>
        cases h
        simp only [Bool.and_eq_true, decide_eq_true_eq] at hguard
        exact ⟨hguard.1.1, hguard.1.2, hguard.2⟩
    · exact absurd h (by simp)

theorem clean_name_good {s : String} {r : String} (h : clean_name s = some r) :
    goodName r := by
  unfold clean_name at h
  cases hc : clean_nameL s.data with
  | none => rw [hc] at h; simp at h
  | some l =>
      rw [hc] at h
      simp only [Option.map_some'] at h
      cases h
      exact clean_nameL_good hc

theorem clean_map_good {l : List Char} {r : String}
    (h : (clean_nameL l).map String.mk = some r) : goodName r := by
  cases hc : clean_nameL l with
  | none => rw [hc] at h; simp at h
  | some g =>
      rw [hc] at h
      simp only [Option.map_some'] at h
      cases h
      exact clean_nameL_good hc

/-! Every name the extractor stores comes from `clean_name` -/

theorem nerName_good {o : NerOracle} {t : String} {s : String}
    (h : nerName o t = some s) : goodName s := by
  unfold nerName at h
  split at h
  · exact absurd h (by simp)
  · split at h
    · exact absurd h (by simp)
    · split at h
      · exact absurd h (by simp)
      · exact clean_name_good h

theorem fb1Lines_good :
    ∀ (ls : List (List Char)) (cur : Option String) (s : String),
      (cur = some s → goodName s) →
      fb1Lines ls cur = some s → goodName s := by
  intro ls
  induction ls with
  | nil =>
      intro cur s hcur h
      exact hcur (by simpa [fb1Lines] using h)
  | cons l ls ih =>
      intro cur s hcur h
      rw [fb1Lines] at h
      dsimp only at h
      split at h
      · exact ih cur s hcur h
      · split at h
        · exact clean_map_good h
        · exact ih cur s hcur h

theorem fallback1_good {cs : List Char} {cur : Option String} {s : String}
    (hcur : cur = some s → goodName s)
    (h : fallback1 cs cur = some s) : goodName s :=
  fb1Lines_good _ cur s hcur h

theorem fallback2_good {cs : List Char} {cur : Option String} {s : String}
    (hcur : cur = some s → goodName s)
    (h : fallback2 cs cur = some s) : goodName s := by
  unfold fallback2 at h
  split at h
  · split at h
    · exact clean_map_good h
    · exact absurd h (by simp)
  · exact hcur h

theorem nameVal_good {o : NerOracle} {t : String} {s : String}
    (h : nameVal o t = some s) : goodName s := by
  unfold nameVal at h
  dsimp only at h
  split at h
  · split at h
    · exact fallback2_good
        (fallback1_good (fun h0 => nerName_good h0)) h
    · exact fallback1_good (fun h0 => nerName_good h0) h
  · exact nerName_good h

/-! College cascade lemmas -/

theorem collegeLoop_bounds :
    ∀ (ms : List (List Char → Option (List Char))) (cs : List Char) (c : String),
      collegeLoop ms cs = some c → 5 ≤ c.length ∧ c.length ≤ 150 := by
  intro ms
  induction ms with
  | nil => intro cs c h; simp [collegeLoop] at h
  | cons m ms ih =>
      intro cs c h
      rw [collegeLoop] at h
      dsimp only at h
      split at h
      · next g hg =>
          split at h
          · next hguard =>
              cases h
              simp only [Bool.and_eq_true, decide_eq_true_eq] at hguard
              exact ⟨hguard.1, hguard.2⟩
          · exact ih cs c h
      · exact ih cs c h

theorem cm5Alts_bound :
    ∀ (alts : List (List Char)) (cs : List Char) (pos : Nat) (g : List Char),
      (∀ a ∈ alts, a.length ≤ 4) → cm5Alts alts cs pos = some g →
      g.length ≤ 4 := by
  intro alts
  induction alts with
  | nil => intro cs pos g _ h; simp [cm5Alts] at h
  | cons a rest ih =>
      intro cs pos g hb h
      rw [cm5Alts] at h
      split at h
      · cases h
        have ha := hb a (List.mem_cons_self _ _)
        calc (sliceL cs pos (pos + a.length)).length
            ≤ pos + a.length - pos := by
              unfold sliceL
              rw [List.length_take]
              exact Nat.min_le_left _ _
          _ ≤ 4 := by omega
      · exact ih cs pos g (fun x hx => hb x (List.mem_cons_of_mem _ hx)) h

theorem college_abbrevs_short : ∀ a ∈ college_abbrevs, a.length ≤ 4 := by decide

theorem cm5Go_bound :
    ∀ (cs : List Char) (f pos : Nat) (g : List Char),
      cm5Go cs f pos = some g → g.length ≤ 4 := by
  intro cs f
  induction f with
  | zero =>
      intro pos g h
      rw [cm5Go] at h
      split at h
      · exact cm5Alts_bound college_abbrevs cs pos g college_abbrevs_short h
      · simp at h
  | succ f' ih =>
      intro pos g h
      rw [cm5Go] at h
      split at h
      · next g0 hg0 =>
          cases h
          split at hg0
          · exact cm5Alts_bound college_abbrevs cs pos _ college_abbrevs_short hg0
          · simp at hg0
      · exact ih (pos + 1) g h

theorem cm5_bound {cs g : List Char} (h : cm5 cs = some g) : g.length ≤ 4 :=
  cm5Go_bound cs cs.length 0 g h

theorem collegeLoop_cm5_none (cs : List Char) : collegeLoop [cm5] cs = none := by
  rw [collegeLoop]
  dsimp only
  split
  · next g hg =>
      have hlen : (cleanCollege g).length ≤ 4 :=
        Nat.le_trans (length_cleanCollege_le g) (cm5_bound hg)
      have hdec : decide (5 ≤ (cleanCollege g).length) = false := by
        simp only [decide_eq_false_iff_not]
        omega
      rw [hdec]
      simp [collegeLoop]
  · simp [collegeLoop]

theorem collegeLoop_drop_cm5 :
    ∀ (ms : List (List Char → Option (List Char))) (cs : List Char),
      collegeLoop (ms ++ [cm5]) cs = collegeLoop ms cs := by
  intro ms
  induction ms with
  | nil =>
      intro cs
      rw [List.nil_append, collegeLoop_cm5_none]
      simp [collegeLoop]
  | cons m ms ih =>
      intro cs
      rw [List.cons_append, collegeLoop, collegeLoop]
      dsimp only
      cases hm : m cs with
      | none => simp only [hm]; exact ih cs
      | some g =>
          simp only [hm]
          split
          · rfl
          · exact ih cs


/-- C3: whenever the returned record's college field is present, its
cleaned text has length between 5 and 150 inclusive; a match whose
cleaned text falls outside that range is never accepted. -/
theorem c3_college_length_bounds :
    ∀ (o : NerOracle) (t : String) (sn : Option String) (c : String),
      (extract_details_huggingface o t sn).college = some c →
      5 ≤ c.length ∧ c.length ≤ 150 := by
  intro o t sn c h
  exact collegeLoop_bounds college_patterns t.data c h

/-- Witness for C3 at a concrete input whose college field is present. -/
theorem c3_college_length_bounds_witness :
    5 ≤ ("A College" : String).length ∧ ("A College" : String).length ≤ 150 :=
  c3_college_length_bounds failNer "A College 2020" none "A College" (by rfl)

/-- C6: `clean_name` on `"Dr. John # Smith123 Resume"` yields
`"John Smith"`, which passes the at-least-2-words, 4-to-50-character
acceptance check. -/
theorem c6_clean_name_example :
    clean_name "Dr. John # Smith123 Resume" = some "John Smith" ∧
    2 ≤ (pySplitWs "John Smith".data).length ∧
    4 ≤ ("John Smith" : String).length ∧ ("John Smith" : String).length ≤ 50 := by
  refine ⟨by rfl, by decide, by decide, by decide⟩

/-- C10: college pattern 5 can never set the college field — its capture
group is the 3-to-4-character abbreviation, below the 5-character
acceptance minimum even after cleaning — so the cascade with pattern 5 is
extensionally equal to the cascade without it. -/
theorem c10_pattern5_dead :
    (∀ (cs g : List Char), cm5 cs = some g → (cleanCollege g).length < 5) ∧
    (∀ cs : List Char, collegeVal cs = collegeValNo5 cs) := by
  constructor
  · intro cs g h
    have := Nat.le_trans (length_cleanCollege_le g) (cm5_bound h)
    omega
  · intro cs
    exact collegeLoop_drop_cm5 college_patterns_first4 cs

/-- Witness for C10 at a concrete input matched by pattern 5. -/
theorem c10_pattern5_dead_witness :
    (cleanCollege "IIT".data).length < 5 :=
  c10_pattern5_dead.1 "IIT Delhi".data "IIT".data (by rfl)

/-- C2 counterexample: on the claim's three person spans the effective
merging loop produces raw name `"Su jan Kumar"`, not `"Sujan Kumar"` —
a gap of 0 is joined with a space, not concatenated directly. -/
theorem c2_counterexample :
    combineNames (sortStart
      [⟨"PER", "Su", 0, 2, 9/10⟩, ⟨"PER", "jan", 2, 5, 9/10⟩,
       ⟨"PER", "Kumar", 7, 12, 9/10⟩]) = ["Su jan Kumar"] ∧
    ("Su jan Kumar" : String) ≠ "Sujan Kumar" := by
  exact ⟨by rfl, by decide⟩

/-- C2 amended: the effective definition merges with a single-tier rule —
any next span starting within 5 characters of the previous span's end
(including gaps of at most 2) is joined with a single space, and a larger
gap starts a new candidate; on the claim's spans the merged raw name is
`"Su jan Kumar"`. -/
theorem c2_single_tier_merge :
    (∀ a b : Ent,
        combineNames [a, b] =
          if b.start - a.end_ ≤ 5 then [a.word ++ " " ++ b.word]
          else [a.word, b.word]) ∧
    combineNames (sortStart
      [⟨"PER", "Su", 0, 2, 9/10⟩, ⟨"PER", "jan", 2, 5, 9/10⟩,
       ⟨"PER", "Kumar", 7, 12, 9/10⟩]) = ["Su jan Kumar"] := by
  constructor
  · intro a b
    simp only [combineNames, combineAux]
  · rfl

/-- C5 counterexample: a person span with confidence exactly 0.75 is not
collected — the filter requires a strictly greater score — and so the NER
name block finds nothing for it. -/
theorem c5_counterexample :
    personEnts [⟨"PER", "John", 0, 4, 0.75⟩] = [] ∧
    nerName (fun _ => Except.ok [⟨"PER", "John", 0, 4, 0.75⟩]) "John" = none := by
  have hp : personEnts [⟨"PER", "John", 0, 4, 0.75⟩] = [] := by
    simp [personEnts]
  refine ⟨hp, ?_⟩
  unfold nerName
  dsimp only
  rw [hp]
  rfl

/-- C5 amended: the entity filter collects exactly the spans tagged `PER`
whose confidence is strictly greater than 0.75; a span at exactly 0.75 is
excluded. -/
theorem c5_strict_threshold :
    ∀ ents : List Ent,
      personEnts ents =
        ents.filter fun e => e.entity_group == "PER" && decide ((0.75 : ℚ) < e.score) := by
  intro ents
  induction ents with
  | nil => rfl
  | cons e es ih =>
      rw [personEnts, List.filter_cons]
      by_cases h : (e.entity_group == "PER" && decide ((0.75 : ℚ) < e.score)) = true
      · rw [if_pos h, if_pos h, ih]
      · rw [if_neg h, if_neg h, ih]

/-- C7: if the NER capability raises during name extraction, the failure
is recovered locally — the primary (NER) name result is absent and the
whole extraction agrees with the extraction under the always-failing
oracle, so fallbacks and all other fields are unaffected. -/
theorem c7_ner_failure_recovered :
    ∀ (o : NerOracle) (t : String) (sn : Option String),
      (∃ msg, o (String.mk (t.data.take 1000)) = Except.error msg) →
      nerName o t = none ∧
      extract_details_huggingface o t sn = extract_details_huggingface failNer t sn := by
  intro o t sn ⟨msg, hmsg⟩
  have hn : nerName o t = none := by
    unfold nerName
    rw [hmsg]
  have hn2 : nerName failNer t = none := by
    unfold nerName failNer
    rfl
  refine ⟨hn, ?_⟩
  have hname : nameVal o t = nameVal failNer t := by
    unfold nameVal
    rw [hn, hn2]
  unfold extract_details_huggingface
  rw [hname]

/-- Witness for C7 with a concretely failing oracle. -/
theorem c7_ner_failure_recovered_witness :
    nerName failNer "Sujan Kumar" = none ∧
    extract_details_huggingface failNer "Sujan Kumar" none
      = extract_details_huggingface failNer "Sujan Kumar" none :=
  c7_ner_failure_recovered failNer "Sujan Kumar" none ⟨"model load error", rfl⟩

/-- C1: the extractor is a total function — for every oracle and every
string it returns a record; a sub-extractor whose patterns all fail to
match leaves its field absent; and on the empty string (with a failing or
an empty NER capability) every field is absent. -/
theorem c1_total_and_absent_fields :
    (∀ (o : NerOracle) (t : String) (sn : Option String),
        ∃ d : Details, extract_details_huggingface o t sn = d) ∧
    (∀ (o : NerOracle) (t : String) (sn : Option String),
        (research emailRE t.data = none →
          (extract_details_huggingface o t sn).email = none) ∧
        (research phoneRE1 t.data = none → research phoneRE2 t.data = none →
          research phoneRE3 t.data = none →
          (extract_details_huggingface o t sn).phone = none) ∧
        (cm collegeRE1 t.data = none → cm collegeRE2 t.data = none →
          cm collegeRE3 t.data = none → cm collegeRE4 t.data = none →
          cm5 t.data = none →
          (extract_details_huggingface o t sn).college = none) ∧
        (research degreeRE1 t.data = none → research degreeRE2 t.data = none →
          research degreeRE3 t.data = none →
          (extract_details_huggingface o t sn).degree = none) ∧
        (research cgpaRE1 t.data = none → research cgpaRE2 t.data = none →
          research cgpaRE3 t.data = none →
          (extract_details_huggingface o t sn).cgpa = none) ∧
        (nerName o t = none → fallback1 t.data none = none →
          research nameRE t.data = none →
          (extract_details_huggingface o t sn).name = none)) ∧
    extract_details_huggingface failNer "" none = emptyDetails ∧
    extract_details_huggingface emptyNer "" none = emptyDetails := by
  refine ⟨fun o t sn => ⟨_, rfl⟩, ?_, by rfl, by rfl⟩
  intro o t sn
  refine ⟨?_, ?_, ?_, ?_, ?_, ?_⟩
  · intro h1
    show emailVal t.data = none
    unfold emailVal
    rw [h1]
    rfl
  · intro h1 h2 h3
    show phoneVal t.data = none
    unfold phoneVal phone_patterns
    simp only [phoneLoop, h1, h2, h3]
  · intro h1 h2 h3 h4 h5
    show collegeVal t.data = none
    unfold collegeVal college_patterns
    simp only [collegeLoop, h1, h2, h3, h4, h5]
  · intro h1 h2 h3
    show degreeVal t.data = none
    unfold degreeVal degree_patterns
    simp only [degreeLoop, h1, h2, h3]
  · intro h1 h2 h3
    show cgpaVal t.data = none
    unfold cgpaVal cgpa_patterns
    simp only [cgpaLoop, h1, h2, h3]
  · intro hn hf1 hf2
    show nameVal o t = none
    unfold nameVal
    rw [hn]
    dsimp only
    have hg : nameGuard none = true := rfl
    rw [hg, if_pos rfl, hf1, hg, if_pos rfl]
    unfold fallback2
    rw [hf2]

/-- Witness for C1: the empty string with the failing oracle discharges
every hypothesis. -/
theorem c1_total_and_absent_fields_witness :
    (extract_details_huggingface failNer "" none).email = none ∧
    (extract_details_huggingface failNer "" none).name = none :=
  ⟨(c1_total_and_absent_fields.2.1 failNer "" none).1 (by rfl),
   (c1_total_and_absent_fields.2.1 failNer "" none).2.2.2.2.2
     (by rfl) (by rfl) (by rfl)⟩

/-- C4: the phone extractor tries its three patterns in fixed priority
order, returns the first match with the separator characters `-`, `.`,
whitespace and parentheses stripped, stops at the first successful
pattern, and on `"+91 782-907-9853"` returns `"+917829079853"` with the
leading `+` preserved. -/
theorem c4_phone_cascade :
    (∀ t : String,
      (∀ m, research phoneRE1 t.data = some m →
        phoneVal t.data =
          some (String.mk ((sliceL t.data m.1 m.2.1).filter fun c => !phoneStripCh c))) ∧
      (research phoneRE1 t.data = none →
        ∀ m, research phoneRE2 t.data = some m →
        phoneVal t.data =
          some (String.mk ((sliceL t.data m.1 m.2.1).filter fun c => !phoneStripCh c))) ∧
      (research phoneRE1 t.data = none → research phoneRE2 t.data = none →
        ∀ m, research phoneRE3 t.data = some m →
        phoneVal t.data =
          some (String.mk ((sliceL t.data m.1 m.2.1).filter fun c => !phoneStripCh c))) ∧
      (research phoneRE1 t.data = none → research phoneRE2 t.data = none →
        research phoneRE3 t.data = none → phoneVal t.data = none)) ∧
    (extract_details_huggingface failNer "+91 782-907-9853" none).phone
      = some "+917829079853" := by
  refine ⟨fun t => ⟨?_, ?_, ?_, ?_⟩, by rfl⟩
  · intro m h1
    unfold phoneVal phone_patterns
    simp only [phoneLoop, h1]
  · intro h1 m h2
    unfold phoneVal phone_patterns
    simp only [phoneLoop, h1, h2]
  · intro h1 h2 m h3
    unfold phoneVal phone_patterns
    simp only [phoneLoop, h1, h2, h3]
  · intro h1 h2 h3
    unfold phoneVal phone_patterns
    simp only [phoneLoop, h1, h2, h3]

/-- Witness for C4: pattern 1 matches the whole of `"+91 782-907-9853"`
and the cascade returns the stripped digits. -/
theorem c4_phone_cascade_witness :
    phoneVal "+91 782-907-9853".data = some "+917829079853" := by
  have h := (c4_phone_cascade.1 "+91 782-907-9853").1 (0, 16, []) (by rfl)
  rw [h]
  rfl

theorem nameGuard_iff_none {v : Option String}
    (hv : ∀ s, v = some s → goodName s) : nameGuard v = true ↔ v = none := by
  cases v with
  | none => simp [nameGuard]
  | some s =>
      have h4 : 4 ≤ s.length := (hv s rfl).2.1
      apply iff_of_false
      · intro hcon
        simp only [nameGuard, Bool.or_eq_true, beq_iff_eq, decide_eq_true_eq] at hcon
        rcases hcon with hc | hc
        · rw [hc] at h4
          exact absurd h4 (by decide)
        · omega
      · simp

/-- C8: every field of the returned record is either absent or a
non-empty string, and a record is fully determined by its six fields
(there is no status field). -/
theorem c8_fields_nonempty :
    (∀ (o : NerOracle) (t : String) (sn : Option String),
      (∀ s, (extract_details_huggingface o t sn).name = some s → s ≠ "") ∧
      (∀ s, (extract_details_huggingface o t sn).email = some s → s ≠ "") ∧
      (∀ s, (extract_details_huggingface o t sn).phone = some s → s ≠ "") ∧
      (∀ s, (extract_details_huggingface o t sn).college = some s → s ≠ "") ∧
      (∀ s, (extract_details_huggingface o t sn).degree = some s → s ≠ "") ∧
      (∀ s, (extract_details_huggingface o t sn).cgpa = some s → s ≠ "")) ∧
    (∀ d : Details,
        d = ⟨d.name, d.email, d.phone, d.college, d.degree, d.cgpa⟩) := by
  constructor
  · intro o t sn
    refine ⟨?_, ?_, ?_, ?_, ?_, ?_⟩
    · intro s h
      have hg := nameVal_good (o := o) (t := t) h
      intro hs
      rw [hs] at hg
      exact absurd hg.2.1 (by decide)
    · intro s h
      exact emailVal_ne_empty h
    · intro s h
      exact phoneVal_ne_empty h
    · intro s h
      have hb := collegeLoop_bounds college_patterns t.data s h
      intro hs
      rw [hs] at hb
      exact absurd hb.1 (by decide)
    · intro s h
      exact degreeVal_ne_empty h
    · intro s h
      exact cgpaVal_ne_empty h
  · intro d
    rfl

/-- Witness for C8: concrete extractions with a present email and a
present college field. -/
theorem c8_fields_nonempty_witness :
    ("a@b.cc" : String) ≠ "" ∧ ("A College" : String) ≠ "" :=
  ⟨(c8_fields_nonempty.1 failNer "a@b.cc" none).2.1 "a@b.cc" (by rfl),
   (c8_fields_nonempty.1 failNer "A College 2020" none).2.2.2.1 "A College" (by rfl)⟩

/-- C9: `clean_name` returns `None` or an accepted name (at least two
words, length 4 to 50); hence after the primary strategy the name is
never a non-`None` string shorter than 4 characters, and each fallback
guard fires exactly when the name is `None` — the `len < 4` disjunct is
dead. -/
theorem c9_guard_disjunct_dead :
    (∀ s r : String, clean_name s = some r →
        2 ≤ (pySplitWs r.data).length ∧ 4 ≤ r.length ∧ r.length ≤ 50) ∧
    (∀ (o : NerOracle) (t : String),
        (nameGuard (nerName o t) = true ↔ nerName o t = none) ∧
        (nameGuard (if nameGuard (nerName o t) = true
                    then fallback1 t.data (nerName o t) else nerName o t) = true
          ↔ (if nameGuard (nerName o t) = true
             then fallback1 t.data (nerName o t) else nerName o t) = none)) := by
  constructor
  · intro s r h
    exact clean_name_good h
  · intro o t
    constructor
    · exact nameGuard_iff_none fun s hs => nerName_good hs
    · apply nameGuard_iff_none
      intro s hs
      split at hs
      · exact fallback1_good (fun h0 => nerName_good h0) hs
      · exact nerName_good hs

/-- Witness for C9. -/
theorem c9_guard_disjunct_dead_witness :
    2 ≤ (pySplitWs ("John Smith" : String).data).length ∧
    4 ≤ ("John Smith" : String).length ∧ ("John Smith" : String).length ≤ 50 :=
  c9_guard_disjunct_dead.1 "John Smith" "John Smith" (by rfl)
